import Mathlib

/-!
Verification development for the `asc-transformers` exercise notebook
(`exercise/exercise_01.ipynb`): a character-level seq2seq model (Encoder /
Decoder / Seq2Seq orchestrator) together with its tokenizer.

The Python source is shallowly embedded:
* tensors become nested lists of rationals (shape facts become length facts);
* fallible Python operations (dict lookup, tensor indexing, `torch.ones` with
  a malformed size argument, reading an unbound name) become `Except PyErr`;
* the stochastic sampling step (`torch.multinomial`) takes an explicit random
  draw, an inverse-CDF sample over the probability vector;
* the notebook leaves `Encoder.forward` and the `Decoder` internals as TODO
  stubs, so those two components are modelled from the spec (see the doc
  comments below); everything else is transcribed from the notebook cells.
-/

/-- Python exception classes that the embedded code can raise. -/
inductive PyErr where
  | keyError
  | indexError
  | typeError
  | nameError
  | runtimeError
deriving DecidableEq

/-- A vocabulary entry of the notebook's tokenizer: either a single character
of the corpus or one of the three reserved symbols appended by
`build_tokenizer` (the Python strings "<sos>", "<eos>", "<unk>"). -/
inductive Tok where
  | chr : Char → Tok
  | sos : Tok
  | eos : Tok
  | unk : Tok
deriving DecidableEq

/-- Index of the first occurrence of `a` in `l`, if any.  This models lookup
in the Python dict `{token: i for i, token in enumerate(vocab)}`: since the
vocab list is duplicate-free the first index is the dict's value. -/
def lookupIdx {α : Type} [DecidableEq α] : List α → α → Option Nat
  | [], _ => none
  | x :: xs, a => if x = a then some 0 else (lookupIdx xs a).map (fun i => i + 1)

/-- `sorted(list(set("".join(sents))))` from `build_tokenizer`: the distinct
characters of the corpus in increasing character order. -/
def sortedVocabChars (sents : List (List Char)) : List Char :=
  (sents.flatten).dedup.insertionSort (fun a b => a ≤ b)

/-- The dict returned by `build_tokenizer`: the enumerated vocab list plus the
ids of the three reserved symbols.  The Python `stoi` / `itos` dicts are the
derived functions `Vocab.stoi` / `Vocab.itos` below. -/
structure Vocab where
  vocabList : List Tok
  sos_token_id : Nat
  eos_token_id : Nat
  unk_token_id : Nat
deriving DecidableEq

/-- `vocab_stoi[t]`: position of token `t` in the enumerated vocab list
(`none` models a Python `KeyError`). -/
def Vocab.stoi (v : Vocab) (t : Tok) : Option Nat :=
  lookupIdx v.vocabList t

/-- `vocab_itos[i]`: the token enumerated at id `i`. -/
def Vocab.itos (v : Vocab) (i : Nat) : Option Tok :=
  v.vocabList.get? i

/-- `build_tokenizer(sents)`: sort the distinct corpus characters, append the
reserved symbols `<sos>`, `<eos>`, `<unk>`, and record their ids via the stoi
dict (the lookups always succeed because the symbols were just appended; the
`getD` default is never reached). -/
def build_tokenizer (sents : List (List Char)) : Vocab :=
  let vocab := (sortedVocabChars sents).map Tok.chr ++ [Tok.sos, Tok.eos, Tok.unk]
  { vocabList := vocab
    sos_token_id := (lookupIdx vocab Tok.sos).getD vocab.length
    eos_token_id := (lookupIdx vocab Tok.eos).getD vocab.length
    unk_token_id := (lookupIdx vocab Tok.unk).getD vocab.length }

/-- Left-to-right effectful map over `Except`, stopping at the first error:
the behaviour of a Python `for` loop that appends and may raise. -/
def mapExcept {α β : Type} (f : α → Except PyErr β) : List α → Except PyErr (List β)
  | [] => Except.ok []
  | x :: xs =>
    match f x with
    | Except.error e => Except.error e
    | Except.ok y =>
      match mapExcept f xs with
      | Except.error e => Except.error e
      | Except.ok ys => Except.ok (y :: ys)

/-- Body of the `for sent in sents` loop of `tokenize`: `[sos_token_id]`,
then `vocab["stoi"][letter]` for each letter (KeyError on an unseen letter,
the commented-out defaultdict is not active), then `eos_token_id`. -/
def tokenizeSent (v : Vocab) (sent : List Char) : Except PyErr (List Nat) :=
  match mapExcept (fun letter =>
      match v.stoi (Tok.chr letter) with
      | some i => Except.ok i
      | none => Except.error PyErr.keyError) sent with
  | Except.error e => Except.error e
  | Except.ok ids => Except.ok (v.sos_token_id :: ids ++ [v.eos_token_id])

/-- `tokenize(sents, vocab)` from the notebook. -/
def tokenize (sents : List (List Char)) (v : Vocab) : Except PyErr (List (List Nat)) :=
  mapExcept (tokenizeSent v) sents

/-- Detokenization as the spec's round-trip property uses it: the notebook's
inline `"".join([vocab["itos"][i] for i in seqs])` with the reserved
(non-character) symbols stripped. -/
def detok (v : Vocab) (ids : List Nat) : List Char :=
  ids.filterMap (fun i =>
    match v.itos i with
    | some (Tok.chr c) => some c
    | _ => none)

/-- One recurrent cell: maps (step input vector, previous hidden vector) to
the new hidden vector.  The GRU arithmetic itself lives in the external torch
library, so a cell is an arbitrary function; the torch contract that a cell's
output has the configured hidden size is a hypothesis of the shape theorems. -/
def GruCell : Type := List ℚ → List ℚ → List ℚ

/-- Modelled from the spec: `Encoder.__init__`/`Encoder.forward` are left as
TODO stubs in the notebook.  Per the spec (§4.1) the encoder owns an embedding
table, a dropout on the embeddings, and a stack of gated-recurrent layers with
hidden dimension `hidden_size`.  Embedding and dropout are arbitrary functions
standing for the external torch modules; dropout is applied elementwise and so
preserves shape by construction. -/
structure Encoder where
  embedding : Nat → List ℚ
  dropout : ℚ → ℚ
  cells : List GruCell
  hidden_size : Nat

/-- Run one recurrent layer over a sequence of step inputs from initial hidden
`h`, returning the per-step hidden outputs and the final hidden state. -/
def gruLayer (cell : GruCell) : List ℚ → List (List ℚ) → List (List ℚ) × List ℚ
  | h, [] => ([], h)
  | h, x :: xs =>
    let h1 := cell x h
    let r := gruLayer cell h1 xs
    (h1 :: r.1, r.2)

/-- Run the layer stack over a sequence: layer 1 consumes the embeddings,
layer l consumes layer l-1's per-step outputs (spec §4.1 step 4); each layer
starts from the zero hidden state as torch's GRU does.  Returns the final
hidden state of every layer, outermost layer first. -/
def gruStack : List GruCell → List (List ℚ) → Nat → List (List ℚ)
  | [], _, _ => []
  | c :: cs, ins, hsize =>
    let r := gruLayer c (List.replicate hsize 0) ins
    r.2 :: gruStack cs r.1 hsize

/-- Modelled from the spec: final hidden states of all layers for one input
sequence (embed each token, apply dropout, run the layer stack). -/
def encodeSeq (E : Encoder) (seq : List Nat) : List (List ℚ) :=
  gruStack E.cells (seq.map (fun t => (E.embedding t).map E.dropout)) E.hidden_size

/-- Modelled from the spec: `Encoder.forward` on a batch.  Entry `[l][b]` is
layer `l`'s final hidden state for batch element `b`, the layout
(n_layers × batch × hidden) documented in the notebook's docstring; the
per-step outputs are discarded. -/
def Encoder.forward (E : Encoder) (input_tokens : List (List Nat)) :
    List (List (List ℚ)) :=
  (List.range E.cells.length).map (fun l =>
    input_tokens.map (fun seq => (encodeSeq E seq).getD l []))

/-- Modelled from the spec: the `Decoder`'s modules (`Decoder.__init__` and
`Decoder.forward` are TODO stubs in the notebook).  Per the spec (§4.2) and
the recorded module dump: embedding, dropout, a GRU stack, and a feed-forward
head `Linear(W1,b1) → ReLU → Dropout → Linear(W2,b2)` applied to the
flattened concatenation of all layers' updated hidden states. -/
structure Decoder where
  embedding : Nat → List ℚ
  dropout : ℚ → ℚ
  cells : List GruCell
  hidden_size : Nat
  W1 : List (List ℚ)
  b1 : List ℚ
  W2 : List (List ℚ)
  b2 : List ℚ
  output_size : Nat

/-- Advance every layer of the stack by one step: layer 1 consumes the token
embedding, layer l consumes layer l-1's freshly updated hidden state. -/
def stepStack : List GruCell → List ℚ → List (List ℚ) → List (List ℚ)
  | [], _, _ => []
  | _ :: _, _, [] => []
  | c :: cs, z, h :: hs =>
    let h1 := c z h
    h1 :: stepStack cs h1 hs

/-- Dot product of two rational vectors. -/
def dotQ (a b : List ℚ) : ℚ :=
  (List.zipWith (fun x y => x * y) a b).sum

/-- An affine (torch `Linear`) layer: one output per weight row. -/
def affine (W : List (List ℚ)) (b : List ℚ) (x : List ℚ) : List ℚ :=
  (W.zip b).map (fun rb => dotQ rb.1 x + rb.2)

/-- Rectified linear unit on rationals. -/
def reluQ (x : ℚ) : ℚ := max x 0

/-- The decoder's feed-forward head: linear → ReLU → dropout → linear
(spec §4.2, matching the recorded `fc` Sequential). -/
def fcForward (D : Decoder) (x : List ℚ) : List ℚ :=
  affine D.W2 D.b2 (((affine D.W1 D.b1 x).map reluQ).map D.dropout)

/-- Gather, for each batch index `b < bsz`, the per-layer hidden vectors of
batch element `b` from a (layers × batch × hidden) state. -/
def perBatch (hidden : List (List (List ℚ))) (bsz : Nat) : List (List (List ℚ)) :=
  (List.range bsz).map (fun b => hidden.map (fun layer => layer.getD b []))

/-- Reassemble per-batch-element layer stacks into the (layers × batch ×
hidden) layout. -/
def perLayer (hs : List (List (List ℚ))) (n : Nat) : List (List (List ℚ)) :=
  (List.range n).map (fun l => hs.map (fun h => h.getD l []))

/-- Modelled from the spec: one decoder step for one batch element — embed the
token, apply dropout, advance the layer stack once, and project the flattened
concatenation of the updated hidden states through the feed-forward head. -/
def decodeStepSeq (D : Decoder) (t : Nat) (hs : List (List ℚ)) :
    List ℚ × List (List ℚ) :=
  let z := (D.embedding t).map D.dropout
  let hs1 := stepStack D.cells z hs
  (fcForward D hs1.flatten, hs1)

/-- Modelled from the spec: `Decoder.forward` on a single-step batch
(batch × 1 tokens, layers × batch × hidden state).  Returns the logits
(batch × output_size) and the updated hidden state (layers × batch × hidden). -/
def Decoder.forward (D : Decoder) (input_tokens : List (List Nat))
    (hidden : List (List (List ℚ))) :
    List (List ℚ) × List (List (List ℚ)) :=
  let per := (input_tokens.zip (perBatch hidden input_tokens.length)).map
    (fun p => decodeStepSeq D (p.1.headD 0) p.2)
  (per.map Prod.fst, perLayer (per.map Prod.snd) D.cells.length)

/-- The `Seq2Seq` module: encoder, decoder and the two reserved ids, as in
`Seq2Seq.__init__`. -/
structure Seq2Seq where
  encoder : Encoder
  decoder : Decoder
  sos_token_id : Nat
  eos_token_id : Nat

/-- `torch.multinomial(probs, 1)[0].item()` with an explicit random draw `r`:
inverse-CDF sampling, returning the first index whose cumulative probability
exceeds `r` (the drawn index; which index is drawn never matters to the
theorems below, which quantify over every draw). -/
def sampleIdx : List ℚ → ℚ → Nat
  | [], _ => 0
  | [_], _ => 0
  | p :: ps, r => if r < p then 0 else sampleIdx ps (r - p) + 1

/-- The body of one iteration of `Seq2Seq.forward`'s loop up to the sampling:
`output, decoder_hidden = self.decoder(decoder_input, decoder_hidden)`, then
`probs = softmax(output.squeeze(0) / temperature)`, then
`decoder_input = torch.multinomial(probs, 1)[0].item()`.  Returns the sampled
token id together with the updated decoder hidden state.  `softmax` stands
for the external `torch.nn.Softmax(dim=0)` module and `rand` supplies the
per-step random draw of `torch.multinomial`. -/
def decodeStepTok (M : Seq2Seq) (softmax : List ℚ → List ℚ) (rand : Nat → ℚ)
    (temperature : ℚ) (step decoder_input : Nat)
    (decoder_hidden : List (List (List ℚ))) : Nat × List (List (List ℚ)) :=
  let od := M.decoder.forward [[decoder_input]] decoder_hidden
  let probs := softmax ((od.1.headD []).map (fun x => x / temperature))
  (sampleIdx probs (rand step), od.2)

/-- The `for _ in range(max_output_len)` loop of `Seq2Seq.forward`: sample the
next token via `decodeStepTok`, append it to the generated sequence, stop if
it is the end-of-sequence id, otherwise feed it back as the next decoder
input together with the updated hidden state. -/
def decodeLoop (M : Seq2Seq) (softmax : List ℚ → List ℚ) (rand : Nat → ℚ)
    (temperature : ℚ) :
    Nat → Nat → Nat → List (List (List ℚ)) → List Nat
  | 0, _, _, _ => []
  | fuel + 1, step, decoder_input, decoder_hidden =>
    let s := decodeStepTok M softmax rand temperature step decoder_input decoder_hidden
    if s.1 = M.eos_token_id then [s.1]
    else s.1 :: decodeLoop M softmax rand temperature fuel (step + 1) s.1 s.2

/-- `Seq2Seq.forward` (generation mode): encode the unsqueezed input once,
then run the decode loop from the start-of-sequence token, returning the list
of sampled token ids. -/
def Seq2Seq.forward (M : Seq2Seq) (softmax : List ℚ → List ℚ) (rand : Nat → ℚ)
    (input_tokens : List Nat) (max_output_len : Nat) (temperature : ℚ) :
    List Nat :=
  let hidden := M.encoder.forward [input_tokens]
  decodeLoop M softmax rand temperature max_output_len 0 M.sos_token_id hidden

/-- An element of the size tuple handed to `torch.ones`: a Python int, or (as
in the buggy call in `forward_train`) a tensor row. -/
inductive PySize where
  | int : Nat → PySize
  | tensor1 : List Nat → PySize

/-- `torch.ones((a, b), dtype=torch.long)`: succeeds only when both size
entries are ints; a tensor entry raises
`TypeError: ones(): argument 'size' must be tuple of ints`. -/
def torchOnes2 (a b : PySize) : Except PyErr (List (List Nat)) :=
  match a, b with
  | PySize.int m, PySize.int n => Except.ok (List.replicate m (List.replicate n 1))
  | _, _ => Except.error PyErr.typeError

/-- Python indexing `xs[i]` with an `IndexError` on out-of-range. -/
def pyIdx {α : Type} (xs : List α) (i : Nat) : Except PyErr α :=
  match xs.get? i with
  | some x => Except.ok x
  | none => Except.error PyErr.indexError

/-- `output_tokens[:, j].unsqueeze(1)`: select column `j` of a 2-D tensor as a
(batch × 1) tensor; `IndexError` if the column does not exist. -/
def colSelect (m : List (List Nat)) (j : Nat) : Except PyErr (List (List Nat)) :=
  if m.all (fun r => j < r.length) then Except.ok (m.map (fun r => [r.getD j 0]))
  else Except.error PyErr.indexError

/-- `torch.cat(output_list, dim=1)` over 2-D (batch × vocab) tensors: rowwise
concatenation; torch raises on an empty tensor list. -/
def catDim1 : List (List (List ℚ)) → Except PyErr (List (List ℚ))
  | [] => Except.error PyErr.runtimeError
  | [t] => Except.ok t
  | t :: ts =>
    match catDim1 ts with
    | Except.ok rest => Except.ok (List.zipWith (fun a b => a ++ b) t rest)
    | Except.error e => Except.error e

/-- The `for token in range(hidden.shape[1]-1)` loop of
`Seq2Seq.forward_train`, exactly as the notebook writes it.  The loop body
reads the name `decoder_inputs`, which is never assigned before the loop (the
initialisation above the loop assigns `decoder_input`, without the `s`), so
the local is carried as an `Option` and reading `none` raises `NameError`.
Alongside the Python result, the list of decoder-input batches actually passed
to `self.decoder` is returned, so that theorems can speak about which decoder
invocations happen. -/
def forwardTrainLoop (M : Seq2Seq) (output_tokens : List (List Nat)) :
    Nat → Nat → Option (List (List Nat)) → List (List (List ℚ)) →
    List (List (List ℚ)) → List (List (List Nat)) →
    Except PyErr (List (List (List ℚ))) × List (List (List Nat))
  | 0, _, _, _, acc, calls => (Except.ok acc.reverse, calls.reverse)
  | fuel + 1, token, decoder_inputs?, decoder_hidden, acc, calls =>
    match decoder_inputs? with
    | none => (Except.error PyErr.nameError, calls.reverse)
    | some decoder_inputs =>
      let od := M.decoder.forward decoder_inputs decoder_hidden
      match colSelect output_tokens (token + 1) with
      | Except.error e => (Except.error e, (decoder_inputs :: calls).reverse)
      | Except.ok nextInputs =>
        forwardTrainLoop M output_tokens fuel (token + 1) (some nextInputs) od.2
          (od.1 :: acc) (decoder_inputs :: calls)

/-- `Seq2Seq.forward_train` as committed in the notebook: encode the batch,
initialise `decoder_input` via `torch.ones((input_tokens[0], 1)) * sos`
(note: `input_tokens[0]` is a tensor row, not the batch size — this raises
`TypeError`; the assigned name is also never read again), run the teacher-
forcing loop `hidden.shape[1] - 1` times, and concatenate the collected
outputs along dim 1.  Returns the Python outcome together with the trace of
decoder-input batches passed to the decoder. -/
def Seq2Seq.forward_train (M : Seq2Seq)
    (input_tokens output_tokens : List (List Nat)) :
    Except PyErr (List (List ℚ)) × List (List (List Nat)) :=
  let hidden := M.encoder.forward input_tokens
  match pyIdx input_tokens 0 with
  | Except.error e => (Except.error e, [])
  | Except.ok row0 =>
    match torchOnes2 (PySize.tensor1 row0) (PySize.int 1) with
    | Except.error e => (Except.error e, [])
    | Except.ok ones =>
      let _decoder_input := ones.map (fun r => r.map (fun x => x * M.sos_token_id))
      match forwardTrainLoop M output_tokens ((hidden.headD []).length - 1) 0
          none hidden [] [] with
      | (Except.error e, calls) => (Except.error e, calls)
      | (Except.ok output_list, calls) =>
        match catDim1 output_list with
        | Except.error e => (Except.error e, calls)
        | Except.ok output => (Except.ok output, calls)

/-- A 2-D tensor has shape (a × b). -/
def HasShape2 (t : List (List ℚ)) (a b : Nat) : Prop :=
  t.length = a ∧ ∀ x ∈ t, x.length = b

/-- A 3-D tensor has shape (a × b × c). -/
def HasShape3 (t : List (List (List ℚ))) (a b c : Nat) : Prop :=
  t.length = a ∧ ∀ x ∈ t, x.length = b ∧ ∀ y ∈ x, y.length = c

instance (t : List (List ℚ)) (a b : Nat) : Decidable (HasShape2 t a b) := by
  unfold HasShape2; infer_instance

instance (t : List (List (List ℚ))) (a b c : Nat) : Decidable (HasShape3 t a b c) := by
  unfold HasShape3; infer_instance

/-- A one-layer encoder on a one-dimensional hidden space, used to instantiate
the shape theorems on concrete inputs. -/
def encOne : Encoder :=
  { embedding := fun _ => [1]
    dropout := fun x => x
    cells := [fun _ _ => [0]]
    hidden_size := 1 }

/-- A one-layer decoder with a two-token output vocabulary, used to
instantiate the theorems on concrete inputs. -/
def decOne : Decoder :=
  { embedding := fun _ => [1]
    dropout := fun x => x
    cells := [fun _ _ => [0]]
    hidden_size := 1
    W1 := [[1]]
    b1 := [0]
    W2 := [[1], [1]]
    b2 := [0, 0]
    output_size := 2 }

/-- A concrete seq2seq model over `encOne`/`decOne` whose end-of-sequence id
is never sampled (the logits have length 2, so sampled ids are below 2). -/
def s2sOne : Seq2Seq :=
  { encoder := encOne
    decoder := decOne
    sos_token_id := 0
    eos_token_id := 5 }

/-! ### Lemmas about the tokenizer embedding -/

theorem lookupIdx_eq_none_iff {α : Type} [DecidableEq α] (l : List α) (a : α) :
    lookupIdx l a = none ↔ a ∉ l := by
  induction l with
  | nil => simp [lookupIdx]
  | cons x xs ih =>
    by_cases hx : x = a
    · subst hx; simp [lookupIdx]
    · simp [lookupIdx, hx, ih, Ne.symm hx]

theorem lookupIdx_isSome_iff {α : Type} [DecidableEq α] (l : List α) (a : α) :
    (lookupIdx l a).isSome ↔ a ∈ l := by
  rw [Option.isSome_iff_ne_none]
  constructor
  · intro h
    by_contra hmem
    exact h ((lookupIdx_eq_none_iff l a).mpr hmem)
  · intro hmem hnone
    exact ((lookupIdx_eq_none_iff l a).mp hnone) hmem

theorem lookupIdx_get? {α : Type} [DecidableEq α] :
    ∀ {l : List α} {a : α} {i : Nat}, lookupIdx l a = some i → l.get? i = some a := by
  intro l
  induction l with
  | nil => intro a i h; simp [lookupIdx] at h
  | cons x xs ih =>
    intro a i h
    by_cases hx : x = a
    · subst hx
      simp [lookupIdx] at h
      simp [← h]
    · simp [lookupIdx, hx] at h
      obtain ⟨j, hj, rfl⟩ := h
      simpa using ih hj

theorem lookupIdx_lt_length {α : Type} [DecidableEq α] {l : List α} {a : α} {i : Nat}
    (h : lookupIdx l a = some i) : i < l.length := by
  have := lookupIdx_get? h
  exact (List.get?_eq_some.mp this).1

theorem lookupIdx_of_get? {α : Type} [DecidableEq α] :
    ∀ {l : List α} {a : α} {i : Nat}, l.Nodup → l.get? i = some a →
      lookupIdx l a = some i := by
  intro l
  induction l with
  | nil => intro a i _ h; simp at h
  | cons x xs ih =>
    intro a i hnd h
    match i with
    | 0 =>
      have hx : x = a := Option.some.inj h
      simp [lookupIdx, hx]
    | i + 1 =>
      have h2 : xs.get? i = some a := h
      have hmem : a ∈ xs := List.get?_mem h2
      have hx : x ≠ a := by
        rintro rfl
        exact (List.nodup_cons.mp hnd).1 hmem
      simp [lookupIdx, hx, ih (List.nodup_cons.mp hnd).2 h2]

theorem lookupIdx_append_of_not_mem {α : Type} [DecidableEq α] {a : α} :
    ∀ {l₁ : List α} (l₂ : List α), a ∉ l₁ →
      lookupIdx (l₁ ++ l₂) a = (lookupIdx l₂ a).map (fun i => i + l₁.length) := by
  intro l₁
  induction l₁ with
  | nil => intro l₂ _; simp
  | cons x xs ih =>
    intro l₂ hmem
    have hx : x ≠ a := fun h => hmem (h ▸ List.mem_cons_self x xs)
    have hxs : a ∉ xs := fun h => hmem (List.mem_cons_of_mem x h)
    rw [List.cons_append]
    have hstep : lookupIdx (x :: (xs ++ l₂)) a
        = (lookupIdx (xs ++ l₂) a).map (fun i => i + 1) := by
      simp [lookupIdx, hx]
    rw [hstep, ih l₂ hxs]
    cases lookupIdx l₂ a with
    | none => rfl
    | some j => simp [Nat.add_assoc]

theorem mem_sortedVocabChars {sents : List (List Char)} {c : Char} :
    c ∈ sortedVocabChars sents ↔ c ∈ sents.flatten := by
  unfold sortedVocabChars
  rw [List.mem_insertionSort, List.mem_dedup]

theorem sortedVocabChars_nodup (sents : List (List Char)) :
    (sortedVocabChars sents).Nodup :=
  ((List.perm_insertionSort _ _).nodup_iff).mpr (List.nodup_dedup _)

theorem sortedVocabChars_sorted (sents : List (List Char)) :
    List.Sorted (fun a b : Char => a ≤ b) (sortedVocabChars sents) :=
  List.sorted_insertionSort _ _

theorem build_tokenizer_vocabList (sents : List (List Char)) :
    (build_tokenizer sents).vocabList
      = (sortedVocabChars sents).map Tok.chr ++ [Tok.sos, Tok.eos, Tok.unk] := rfl

theorem sos_not_mem_chr (cs : List Char) : Tok.sos ∉ cs.map Tok.chr := by
  simp

theorem eos_not_mem_chr (cs : List Char) : Tok.eos ∉ cs.map Tok.chr := by
  simp

theorem unk_not_mem_chr (cs : List Char) : Tok.unk ∉ cs.map Tok.chr := by
  simp

theorem build_tokenizer_sos_id (sents : List (List Char)) :
    (build_tokenizer sents).sos_token_id = (sortedVocabChars sents).length := by
  show ((lookupIdx ((sortedVocabChars sents).map Tok.chr ++ [Tok.sos, Tok.eos, Tok.unk])
    Tok.sos).getD _) = _
  rw [lookupIdx_append_of_not_mem _ (sos_not_mem_chr _)]
  simp [lookupIdx]

theorem build_tokenizer_eos_id (sents : List (List Char)) :
    (build_tokenizer sents).eos_token_id = (sortedVocabChars sents).length + 1 := by
  show ((lookupIdx ((sortedVocabChars sents).map Tok.chr ++ [Tok.sos, Tok.eos, Tok.unk])
    Tok.eos).getD _) = _
  rw [lookupIdx_append_of_not_mem _ (eos_not_mem_chr _)]
  simp [lookupIdx, Nat.add_comm]

theorem build_tokenizer_unk_id (sents : List (List Char)) :
    (build_tokenizer sents).unk_token_id = (sortedVocabChars sents).length + 2 := by
  show ((lookupIdx ((sortedVocabChars sents).map Tok.chr ++ [Tok.sos, Tok.eos, Tok.unk])
    Tok.unk).getD _) = _
  rw [lookupIdx_append_of_not_mem _ (unk_not_mem_chr _)]
  simp [lookupIdx, Nat.add_comm]

theorem build_tokenizer_nodup (sents : List (List Char)) :
    (build_tokenizer sents).vocabList.Nodup := by
  rw [build_tokenizer_vocabList]
  refine List.Nodup.append ?_ ?_ ?_
  · exact (sortedVocabChars_nodup sents).map (fun a b h => Tok.chr.inj h)
  · simp
  · intro t ht
    obtain ⟨c, _, rfl⟩ := List.mem_map.mp ht
    simp

theorem build_tokenizer_itos_sos (sents : List (List Char)) :
    (build_tokenizer sents).itos (build_tokenizer sents).sos_token_id = some Tok.sos := by
  rw [build_tokenizer_sos_id]
  show ((sortedVocabChars sents).map Tok.chr ++ [Tok.sos, Tok.eos, Tok.unk]).get? _ = _
  rw [List.get?_append_right (by simp)]
  simp

theorem build_tokenizer_itos_eos (sents : List (List Char)) :
    (build_tokenizer sents).itos (build_tokenizer sents).eos_token_id = some Tok.eos := by
  rw [build_tokenizer_eos_id]
  show ((sortedVocabChars sents).map Tok.chr ++ [Tok.sos, Tok.eos, Tok.unk]).get? _ = _
  rw [List.get?_append_right (by simp)]
  simp

theorem build_tokenizer_itos_unk (sents : List (List Char)) :
    (build_tokenizer sents).itos (build_tokenizer sents).unk_token_id = some Tok.unk := by
  rw [build_tokenizer_unk_id]
  show ((sortedVocabChars sents).map Tok.chr ++ [Tok.sos, Tok.eos, Tok.unk]).get? _ = _
  rw [List.get?_append_right (by simp)]
  simp

theorem stoi_of_mem_corpus {sents : List (List Char)} {c : Char}
    (h : c ∈ sents.flatten) :
    ∃ i, (build_tokenizer sents).stoi (Tok.chr c) = some i
      ∧ (build_tokenizer sents).itos i = some (Tok.chr c) := by
  have hmem : Tok.chr c ∈ (build_tokenizer sents).vocabList := by
    rw [build_tokenizer_vocabList]
    exact List.mem_append_left _ (List.mem_map_of_mem _ (mem_sortedVocabChars.mpr h))
  obtain ⟨i, hi⟩ := Option.isSome_iff_exists.mp
    ((lookupIdx_isSome_iff _ _).mpr hmem)
  exact ⟨i, hi, lookupIdx_get? hi⟩

theorem mapExcept_ok_forall₂ {α β : Type} {f : α → Except PyErr β} :
    ∀ {l : List α} {r : List β}, mapExcept f l = Except.ok r →
      List.Forall₂ (fun x y => f x = Except.ok y) l r := by
  intro l
  induction l with
  | nil =>
    intro r h
    simp [mapExcept] at h
    simp [← h]
  | cons x xs ih =>
    intro r h
    unfold mapExcept at h
    cases hx : f x with
    | error e => rw [hx] at h; cases h
    | ok y =>
      rw [hx] at h
      cases hxs : mapExcept f xs with
      | error e => rw [hxs] at h; cases h
      | ok ys =>
        rw [hxs] at h
        cases h
        exact List.Forall₂.cons hx (ih hxs)

theorem mapExcept_ok_of_forall {α β : Type} {f : α → Except PyErr β} :
    ∀ {l : List α}, (∀ x ∈ l, ∃ y, f x = Except.ok y) →
      ∃ r, mapExcept f l = Except.ok r
        ∧ List.Forall₂ (fun x y => f x = Except.ok y) l r := by
  intro l
  induction l with
  | nil => intro _; exact ⟨[], rfl, List.Forall₂.nil⟩
  | cons x xs ih =>
    intro h
    obtain ⟨y, hy⟩ := h x (List.mem_cons_self x xs)
    obtain ⟨ys, hys, hall⟩ := ih (fun z hz => h z (List.mem_cons_of_mem x hz))
    refine ⟨y :: ys, ?_, List.Forall₂.cons hy hall⟩
    unfold mapExcept
    rw [hy, hys]

theorem mapExcept_error_of_mem {α β : Type} {f : α → Except PyErr β} :
    ∀ {l : List α} {x : α} {ex : PyErr}, x ∈ l → f x = Except.error ex →
      ∃ e, mapExcept f l = Except.error e := by
  intro l
  induction l with
  | nil => intro x ex h; cases h
  | cons z zs ih =>
    intro x ex hmem hx
    unfold mapExcept
    cases hz : f z with
    | error e => exact ⟨e, rfl⟩
    | ok y =>
      rcases List.mem_cons.mp hmem with rfl | hmem2
      · rw [hx] at hz; cases hz
      · obtain ⟨e, he⟩ := ih hmem2 hx
        exact ⟨e, by rw [he]⟩

theorem mapExcept_error_eq {α β : Type} {f : α → Except PyErr β} {e₀ : PyErr}
    (hf : ∀ x e, f x = Except.error e → e = e₀) :
    ∀ {l : List α} {e : PyErr}, mapExcept f l = Except.error e → e = e₀ := by
  intro l
  induction l with
  | nil => intro e h; cases h
  | cons x xs ih =>
    intro e h
    unfold mapExcept at h
    cases hx : f x with
    | error ex => rw [hx] at h; cases h; exact hf x _ hx
    | ok y =>
      rw [hx] at h
      cases hxs : mapExcept f xs with
      | error ex => rw [hxs] at h; cases h; exact ih hxs
      | ok ys => rw [hxs] at h; cases h

theorem tokenizeSent_ok {sents : List (List Char)} {s : List Char}
    (h : ∀ c ∈ s, c ∈ sents.flatten) :
    ∃ ids, tokenizeSent (build_tokenizer sents) s
        = Except.ok ((build_tokenizer sents).sos_token_id
            :: ids ++ [(build_tokenizer sents).eos_token_id])
      ∧ List.Forall₂
          (fun c i => (build_tokenizer sents).itos i = some (Tok.chr c)) s ids := by
  have hall : ∀ c ∈ s, ∃ i,
      (match (build_tokenizer sents).stoi (Tok.chr c) with
        | some i => Except.ok i
        | none => Except.error PyErr.keyError) = Except.ok i := by
    intro c hc
    obtain ⟨i, hi, _⟩ := stoi_of_mem_corpus (h c hc)
    exact ⟨i, by rw [hi]⟩
  obtain ⟨ids, hids, hall2⟩ := mapExcept_ok_of_forall hall
  refine ⟨ids, ?_, ?_⟩
  · unfold tokenizeSent
    rw [hids]
  · refine hall2.imp ?_
    intro c i hci
    cases hstoi : (build_tokenizer sents).stoi (Tok.chr c) with
    | none => rw [hstoi] at hci; cases hci
    | some j =>
      rw [hstoi] at hci
      cases hci
      exact lookupIdx_get? hstoi

theorem detok_of_forall₂ {v : Vocab} :
    ∀ {s : List Char} {ids : List Nat},
      List.Forall₂ (fun c i => v.itos i = some (Tok.chr c)) s ids →
      detok v ids = s := by
  intro s ids h
  induction h with
  | nil => rfl
  | cons hci _ ih =>
    unfold detok at ih ⊢
    rw [List.filterMap_cons]
    rw [hci]
    rw [ih]

theorem forall₂_mem_right {α β : Type} {R : α → β → Prop} :
    ∀ {l : List α} {r : List β}, List.Forall₂ R l r → ∀ y ∈ r, ∃ x ∈ l, R x y := by
  intro l r h
  induction h with
  | nil => intro y hy; cases hy
  | cons hR _ ih =>
    intro y hy
    rcases List.mem_cons.mp hy with rfl | hy2
    · exact ⟨_, List.mem_cons_self _ _, hR⟩
    · obtain ⟨x, hx, hRx⟩ := ih y hy2
      exact ⟨x, List.mem_cons_of_mem _ hx, hRx⟩

theorem stoi_none_of_not_mem {sents : List (List Char)} {c : Char}
    (h : c ∉ sents.flatten) :
    (build_tokenizer sents).stoi (Tok.chr c) = none := by
  show lookupIdx _ _ = none
  apply (lookupIdx_eq_none_iff _ _).mpr
  rw [build_tokenizer_vocabList]
  intro hmem
  rcases List.mem_append.mp hmem with h1 | h2
  · obtain ⟨d, hd, hdc⟩ := List.mem_map.mp h1
    have hdc2 := Tok.chr.inj hdc
    subst hdc2
    exact h (mem_sortedVocabChars.mp hd)
  · simp at h2

theorem tokenizeSent_error_eq {v : Vocab} {s : List Char} {e : PyErr}
    (h : tokenizeSent v s = Except.error e) : e = PyErr.keyError := by
  unfold tokenizeSent at h
  cases hmm : mapExcept (fun letter =>
      match v.stoi (Tok.chr letter) with
      | some i => Except.ok i
      | none => Except.error PyErr.keyError) s with
  | error e2 =>
    rw [hmm] at h
    cases h
    refine mapExcept_error_eq ?_ hmm
    intro x ex hx
    cases hstoi : v.stoi (Tok.chr x) with
    | some i => rw [hstoi] at hx; cases hx
    | none => rw [hstoi] at hx; cases hx; rfl
  | ok ids => rw [hmm] at h; cases h

theorem tokenizeSent_error_of_unknown {sents : List (List Char)} {s : List Char}
    {c : Char} (hc : c ∈ s) (hnc : c ∉ sents.flatten) :
    tokenizeSent (build_tokenizer sents) s = Except.error PyErr.keyError := by
  have hf : (fun letter =>
      match (build_tokenizer sents).stoi (Tok.chr letter) with
      | some i => Except.ok i
      | none => Except.error PyErr.keyError) c = Except.error PyErr.keyError := by
    show (match (build_tokenizer sents).stoi (Tok.chr c) with
      | some i => Except.ok i
      | none => Except.error PyErr.keyError) = Except.error PyErr.keyError
    rw [stoi_none_of_not_mem hnc]
  obtain ⟨e, he⟩ := @mapExcept_error_of_mem Char Nat (fun letter =>
      match (build_tokenizer sents).stoi (Tok.chr letter) with
      | some i => Except.ok i
      | none => Except.error PyErr.keyError) s c PyErr.keyError hc hf
  have he2 : tokenizeSent (build_tokenizer sents) s = Except.error e := by
    unfold tokenizeSent
    rw [he]
  rw [tokenizeSent_error_eq he2] at he2
  exact he2

theorem tokenizeSent_ok_inv {v : Vocab} {s : List Char} {row : List Nat}
    (h : tokenizeSent v s = Except.ok row) :
    ∃ ids, row = v.sos_token_id :: ids ++ [v.eos_token_id]
      ∧ ∀ i ∈ ids, ∃ c, v.itos i = some (Tok.chr c) := by
  unfold tokenizeSent at h
  cases hmm : mapExcept (fun letter =>
      match v.stoi (Tok.chr letter) with
      | some i => Except.ok i
      | none => Except.error PyErr.keyError) s with
  | error e2 => rw [hmm] at h; cases h
  | ok ids =>
    rw [hmm] at h
    cases h
    refine ⟨ids, rfl, ?_⟩
    intro i hi
    obtain ⟨x, _, hR⟩ := forall₂_mem_right (mapExcept_ok_forall₂ hmm) i hi
    cases hstoi : v.stoi (Tok.chr x) with
    | some j =>
      rw [hstoi] at hR
      cases hR
      exact ⟨x, lookupIdx_get? hstoi⟩
    | none => rw [hstoi] at hR; cases hR

/-- C4: for every string `s` whose characters all occur in the corpus the
vocabulary was built from, tokenizing `[s]` and mapping each id back through
the inverse table `itos`, stripping the reserved start/end symbols, yields
exactly `s`. -/
theorem tokenize_roundtrip (corpus : List (List Char)) (s : List Char)
    (h : ∀ c ∈ s, c ∈ corpus.flatten) :
    (tokenize [s] (build_tokenizer corpus)).map
      (fun rows => rows.map (detok (build_tokenizer corpus))) = Except.ok [s] := by
  obtain ⟨ids, hok, hall⟩ := tokenizeSent_ok h
  have htok : tokenize [s] (build_tokenizer corpus)
      = Except.ok [(build_tokenizer corpus).sos_token_id
          :: ids ++ [(build_tokenizer corpus).eos_token_id]] := by
    unfold tokenize mapExcept
    rw [hok]
    rfl
  rw [htok]
  have hd : detok (build_tokenizer corpus)
      ((build_tokenizer corpus).sos_token_id
        :: ids ++ [(build_tokenizer corpus).eos_token_id]) = s := by
    simp only [detok, List.filterMap_cons, List.filterMap_append,
      build_tokenizer_itos_sos, build_tokenizer_itos_eos]
    have := detok_of_forall₂ hall
    unfold detok at this
    rw [this]
    simp
  simp only [Except.map, List.map_cons, List.map_nil, hd]

/-- Witness for `tokenize_roundtrip`: the corpus "ba", the string "ab". -/
theorem tokenize_roundtrip_witness :
    (tokenize [['a', 'b']] (build_tokenizer [['b', 'a']])).map
      (fun rows => rows.map (detok (build_tokenizer [['b', 'a']])))
      = Except.ok [['a', 'b']] :=
  tokenize_roundtrip [['b', 'a']] ['a', 'b'] (by decide)

/-- C5: tokenizing any sentence list containing a character that is not in
the corpus raises a lookup failure (`KeyError`) instead of substituting the
reserved unknown id; the unknown id is reserved in the vocabulary (its `itos`
entry is the unknown symbol) but never occurs in a successfully returned id
sequence. -/
theorem tokenize_unknown_char (corpus sents : List (List Char)) :
    ((∃ s ∈ sents, ∃ c ∈ s, c ∉ corpus.flatten) →
      tokenize sents (build_tokenizer corpus) = Except.error PyErr.keyError)
    ∧ ((build_tokenizer corpus).itos (build_tokenizer corpus).unk_token_id
        = some Tok.unk)
    ∧ (∀ rows, tokenize sents (build_tokenizer corpus) = Except.ok rows →
        ∀ row ∈ rows, (build_tokenizer corpus).unk_token_id ∉ row) := by
  refine ⟨?_, build_tokenizer_itos_unk corpus, ?_⟩
  · rintro ⟨s, hs, c, hc, hnc⟩
    have herr := tokenizeSent_error_of_unknown hc hnc
    obtain ⟨e, he⟩ := @mapExcept_error_of_mem (List Char) (List Nat)
      (tokenizeSent (build_tokenizer corpus)) sents s PyErr.keyError hs herr
    have he2 := mapExcept_error_eq (fun _ _ hx => tokenizeSent_error_eq hx) he
    subst he2
    exact he
  · intro rows hrows row hrow hmemrow
    have hrows2 : mapExcept (tokenizeSent (build_tokenizer corpus)) sents
        = Except.ok rows := hrows
    obtain ⟨s, _, hsok⟩ := forall₂_mem_right (mapExcept_ok_forall₂ hrows2) row hrow
    obtain ⟨ids, rfl, hids⟩ := tokenizeSent_ok_inv hsok
    rcases List.mem_cons.mp hmemrow with h1 | h2
    · rw [build_tokenizer_unk_id, build_tokenizer_sos_id] at h1
      omega
    · rcases List.mem_append.mp h2 with h3 | h4
      · obtain ⟨c, hc⟩ := hids _ h3
        rw [build_tokenizer_itos_unk] at hc
        simp at hc
      · simp only [List.mem_singleton] at h4
        rw [build_tokenizer_unk_id, build_tokenizer_eos_id] at h4
        omega

/-- Witness for `tokenize_unknown_char`: corpus "a"; the sentence "z" fails
with a KeyError, and the successful tokenization of "a" (ids `[1, 0, 2]`)
avoids the unknown id 3. -/
theorem tokenize_unknown_char_witness :
    tokenize [['z']] (build_tokenizer [['a']]) = Except.error PyErr.keyError
    ∧ (build_tokenizer [['a']]).itos (build_tokenizer [['a']]).unk_token_id
        = some Tok.unk
    ∧ ∀ row ∈ [[1, 0, 2]], (build_tokenizer [['a']]).unk_token_id ∉ row :=
  ⟨(tokenize_unknown_char [['a']] [['z']]).1 (by decide),
   (tokenize_unknown_char [['a']] [['z']]).2.1,
   (tokenize_unknown_char [['a']] [['a']]).2.2 [[1, 0, 2]] rfl⟩

theorem sortedVocabChars_pairwise_lt (sents : List (List Char)) :
    List.Pairwise (fun a b : Char => a < b) (sortedVocabChars sents) := by
  have hs := sortedVocabChars_sorted sents
  have hn : List.Pairwise (fun a b : Char => a ≠ b) (sortedVocabChars sents) :=
    sortedVocabChars_nodup sents
  exact (hs.and hn).imp (fun h => lt_of_le_of_ne h.1 h.2)

theorem build_tokenizer_itos_chr {sents : List (List Char)} {i : Nat} {c : Char}
    (h : (build_tokenizer sents).itos i = some (Tok.chr c)) :
    (sortedVocabChars sents).get? i = some c := by
  have h2 : ((sortedVocabChars sents).map Tok.chr
      ++ [Tok.sos, Tok.eos, Tok.unk]).get? i = some (Tok.chr c) := h
  by_cases hik : i < ((sortedVocabChars sents).map Tok.chr).length
  · rw [List.get?_append hik, List.get?_map] at h2
    cases hc : (sortedVocabChars sents).get? i with
    | none => rw [hc] at h2; cases h2
    | some d =>
      rw [hc] at h2
      simp only [Option.map_some'] at h2
      have hdc : d = c := Tok.chr.inj (Option.some.inj h2)
      rw [hdc]
  · rw [List.get?_append_right (Nat.le_of_not_lt hik)] at h2
    match hj : i - ((sortedVocabChars sents).map Tok.chr).length with
    | 0 => rw [hj] at h2; cases h2
    | 1 => rw [hj] at h2; cases h2
    | 2 => rw [hj] at h2; cases h2
    | j + 3 => rw [hj] at h2; cases h2

theorem build_tokenizer_itos_of_get? {sents : List (List Char)} {i : Nat} {c : Char}
    (h : (sortedVocabChars sents).get? i = some c) :
    (build_tokenizer sents).itos i = some (Tok.chr c) := by
  have hik : i < ((sortedVocabChars sents).map Tok.chr).length := by
    rw [List.length_map]
    exact (List.get?_eq_some.mp h).1
  show ((sortedVocabChars sents).map Tok.chr
      ++ [Tok.sos, Tok.eos, Tok.unk]).get? i = some (Tok.chr c)
  rw [List.get?_append hik, List.get?_map, h]
  rfl

theorem build_tokenizer_itos_isSome_iff (sents : List (List Char)) (i : Nat) :
    ((build_tokenizer sents).itos i).isSome
      ↔ i < (sortedVocabChars sents).length + 3 := by
  have hlen : (build_tokenizer sents).vocabList.length
      = (sortedVocabChars sents).length + 3 := by
    rw [build_tokenizer_vocabList]
    simp
  constructor
  · intro h
    obtain ⟨t, ht⟩ := Option.isSome_iff_exists.mp h
    have ht2 : (build_tokenizer sents).vocabList.get? i = some t := ht
    have h2 := (List.get?_eq_some.mp ht2).1
    omega
  · intro h
    have h2 : i < (build_tokenizer sents).vocabList.length := by omega
    rw [Option.isSome_iff_exists]
    exact ⟨_, List.get?_eq_get h2⟩

/-- C6: `build_tokenizer` is deterministic and produces the reference layout:
the distinct corpus characters occupy ids `0 .. k-1` in strictly increasing
character order, the start/end/unknown symbols sit at ids `k`, `k+1`, `k+2`,
the id range is exactly `0 .. k+2` (dense and contiguous from zero), and
`stoi` and `itos` are mutually inverse on that range. -/
theorem build_tokenizer_layout (corpus : List (List Char)) :
    build_tokenizer corpus = build_tokenizer corpus
    ∧ (build_tokenizer corpus).sos_token_id = (sortedVocabChars corpus).length
    ∧ (build_tokenizer corpus).eos_token_id = (sortedVocabChars corpus).length + 1
    ∧ (build_tokenizer corpus).unk_token_id = (sortedVocabChars corpus).length + 2
    ∧ (build_tokenizer corpus).itos (build_tokenizer corpus).sos_token_id
        = some Tok.sos
    ∧ (build_tokenizer corpus).itos (build_tokenizer corpus).eos_token_id
        = some Tok.eos
    ∧ (build_tokenizer corpus).itos (build_tokenizer corpus).unk_token_id
        = some Tok.unk
    ∧ (∀ c, (∃ i, i < (sortedVocabChars corpus).length
          ∧ (build_tokenizer corpus).itos i = some (Tok.chr c))
        ↔ c ∈ corpus.flatten)
    ∧ (∀ i j c d, (build_tokenizer corpus).itos i = some (Tok.chr c) →
        (build_tokenizer corpus).itos j = some (Tok.chr d) → i < j → c < d)
    ∧ (∀ i, ((build_tokenizer corpus).itos i).isSome
        ↔ i < (sortedVocabChars corpus).length + 3)
    ∧ (∀ t i, (build_tokenizer corpus).stoi t = some i →
        (build_tokenizer corpus).itos i = some t)
    ∧ (∀ i t, (build_tokenizer corpus).itos i = some t →
        (build_tokenizer corpus).stoi t = some i) := by
  refine ⟨rfl, build_tokenizer_sos_id corpus, build_tokenizer_eos_id corpus,
    build_tokenizer_unk_id corpus, build_tokenizer_itos_sos corpus,
    build_tokenizer_itos_eos corpus, build_tokenizer_itos_unk corpus,
    ?_, ?_, build_tokenizer_itos_isSome_iff corpus, ?_, ?_⟩
  · intro c
    constructor
    · rintro ⟨i, _, hi⟩
      exact mem_sortedVocabChars.mp (List.get?_mem (build_tokenizer_itos_chr hi))
    · intro hc
      obtain ⟨⟨n, hn⟩, rfl⟩ := List.mem_iff_get.mp (mem_sortedVocabChars.mpr hc)
      exact ⟨n, hn, build_tokenizer_itos_of_get? (List.get?_eq_get hn)⟩
  · intro i j c d hi hj hij
    have hci := build_tokenizer_itos_chr hi
    have hcj := build_tokenizer_itos_chr hj
    have hiℓ : i < (sortedVocabChars corpus).length := (List.get?_eq_some.mp hci).1
    have hjℓ : j < (sortedVocabChars corpus).length := (List.get?_eq_some.mp hcj).1
    have hgi : (sortedVocabChars corpus).get ⟨i, hiℓ⟩ = c :=
      Option.some.inj ((List.get?_eq_get hiℓ).symm.trans hci)
    have hgj : (sortedVocabChars corpus).get ⟨j, hjℓ⟩ = d :=
      Option.some.inj ((List.get?_eq_get hjℓ).symm.trans hcj)
    have := List.pairwise_iff_get.mp (sortedVocabChars_pairwise_lt corpus)
      ⟨i, hiℓ⟩ ⟨j, hjℓ⟩ hij
    rw [hgi, hgj] at this
    exact this
  · intro t i h
    exact lookupIdx_get? h
  · intro i t h
    exact lookupIdx_of_get? (build_tokenizer_nodup corpus) h

/-- Witness for `build_tokenizer_layout`: the corpus "bab" yields ids 0 and 1
for the sorted characters and id 2 for the start symbol, and the sorted-order
conjunct instantiated at ids 0 < 1 gives the character inequality. -/
theorem build_tokenizer_layout_witness :
    (build_tokenizer [['b', 'a', 'b']]).sos_token_id = 2 ∧ 'a' < 'b' :=
  ⟨(build_tokenizer_layout [['b', 'a', 'b']]).2.1,
   (build_tokenizer_layout [['b', 'a', 'b']]).2.2.2.2.2.2.2.2.1 0 1 'a' 'b'
     (by decide) (by decide) (by decide)⟩

/-! ### Lemmas about the model embedding -/

theorem gruLayer_snd_length {cell : GruCell} {n : Nat}
    (hc : ∀ x h, (cell x h).length = n) :
    ∀ (ins : List (List ℚ)) (h : List ℚ), h.length = n →
      ((gruLayer cell h ins).2).length = n := by
  intro ins
  induction ins with
  | nil => intro h hh; exact hh
  | cons x xs ih =>
    intro h hh
    show ((gruLayer cell (cell x h) xs).2).length = n
    exact ih (cell x h) (hc x h)

theorem gruStack_length :
    ∀ (cs : List GruCell) (ins : List (List ℚ)) (hsize : Nat),
      (gruStack cs ins hsize).length = cs.length := by
  intro cs
  induction cs with
  | nil => intro ins hsize; rfl
  | cons c cs ih =>
    intro ins hsize
    show (_ :: gruStack cs _ hsize).length = _
    rw [List.length_cons, ih]
    rfl

theorem gruStack_mem_length {n : Nat} :
    ∀ {cs : List GruCell}, (∀ c ∈ cs, ∀ x h, (c x h).length = n) →
      ∀ (ins : List (List ℚ)), ∀ v ∈ gruStack cs ins n, v.length = n := by
  intro cs
  induction cs with
  | nil => intro _ ins v hv; cases hv
  | cons c cs ih =>
    intro hc ins v hv
    rcases List.mem_cons.mp hv with rfl | hv2
    · exact gruLayer_snd_length (hc c (List.mem_cons_self c cs)) ins
        (List.replicate n 0) (List.length_replicate n 0)
    · exact ih (fun d hd => hc d (List.mem_cons_of_mem c hd)) _ v hv2

/-- C7: for every input batch, `Encoder.forward` returns the final hidden
state of every layer, a tensor of shape (n_layers × batch × hidden_size),
independent of the common row length `L`. -/
theorem encoder_forward_shape (E : Encoder) (input_tokens : List (List Nat))
    (L : Nat)
    (hc : ∀ c ∈ E.cells, ∀ x h, (c x h).length = E.hidden_size)
    (hL : ∀ row ∈ input_tokens, row.length = L) :
    HasShape3 (E.forward input_tokens)
      E.cells.length input_tokens.length E.hidden_size := by
  constructor
  · simp [Encoder.forward]
  · intro x hx
    obtain ⟨l, hl, rfl⟩ := List.mem_map.mp hx
    have hlN : l < E.cells.length := List.mem_range.mp hl
    constructor
    · exact List.length_map input_tokens _
    · intro y hy
      obtain ⟨seq, _, rfl⟩ := List.mem_map.mp hy
      have hlen : (encodeSeq E seq).length = E.cells.length :=
        gruStack_length E.cells _ E.hidden_size
      have hget : (encodeSeq E seq).get? l
          = some ((encodeSeq E seq).get ⟨l, hlen ▸ hlN⟩) :=
        List.get?_eq_get (hlen ▸ hlN)
      have hgd : (encodeSeq E seq).getD l []
          = (encodeSeq E seq).get ⟨l, hlen ▸ hlN⟩ := by
        rw [List.getD_eq_get?, hget]
        rfl
      rw [hgd]
      exact gruStack_mem_length hc _ _ (List.get_mem _ _ _)

/-- Witness for `encoder_forward_shape`: a one-layer encoder with hidden size
one on a 2-row batch of length 3. -/
theorem encoder_forward_shape_witness :
    HasShape3 (encOne.forward [[0, 1, 2], [3, 4, 5]]) 1 2 1 :=
  encoder_forward_shape encOne [[0, 1, 2], [3, 4, 5]] 3
    (by
      intro c hc x h
      cases hc with
      | head => rfl
      | tail _ h2 => cases h2)
    (by decide)

theorem stepStack_length :
    ∀ (cs : List GruCell) (z : List ℚ) (hs : List (List ℚ)),
      (stepStack cs z hs).length = min cs.length hs.length := by
  intro cs
  induction cs with
  | nil => intro z hs; simp [stepStack]
  | cons c cs ih =>
    intro z hs
    cases hs with
    | nil => simp [stepStack]
    | cons h hs =>
      show (_ :: stepStack cs _ hs).length = _
      rw [List.length_cons, ih]
      simp only [List.length_cons]
      omega

theorem stepStack_mem_length {n : Nat} :
    ∀ {cs : List GruCell}, (∀ c ∈ cs, ∀ x h, (c x h).length = n) →
      ∀ (z : List ℚ) (hs : List (List ℚ)), ∀ v ∈ stepStack cs z hs,
        v.length = n := by
  intro cs
  induction cs with
  | nil => intro _ z hs v hv; simp [stepStack] at hv
  | cons c cs ih =>
    intro hc z hs v hv
    cases hs with
    | nil => simp [stepStack] at hv
    | cons h hs =>
      rcases List.mem_cons.mp hv with rfl | hv2
      · exact hc c (List.mem_cons_self c cs) z h
      · exact ih (fun d hd => hc d (List.mem_cons_of_mem c hd)) _ hs v hv2

theorem affine_length (W : List (List ℚ)) (b : List ℚ) (x : List ℚ) :
    (affine W b x).length = min W.length b.length := by
  rw [affine, List.length_map, List.length_zip]

theorem perBatch_length (hidden : List (List (List ℚ))) (bsz : Nat) :
    (perBatch hidden bsz).length = bsz := by
  rw [perBatch, List.length_map, List.length_range]

theorem perBatch_mem_length {hidden : List (List (List ℚ))} {bsz : Nat} :
    ∀ hb ∈ perBatch hidden bsz, hb.length = hidden.length := by
  intro hb hhb
  obtain ⟨b, _, rfl⟩ := List.mem_map.mp hhb
  exact List.length_map hidden _

/-- C8: for a single-step (batch × 1) token batch and a hidden state of shape
(n_layers × batch × hidden_size), `Decoder.forward` returns logits of shape
(batch × output_size) and an updated hidden state of shape
(n_layers × batch × hidden_size). -/
theorem decoder_forward_shape (D : Decoder) (input_tokens : List (List Nat))
    (hidden : List (List (List ℚ)))
    (hc : ∀ c ∈ D.cells, ∀ x h, (c x h).length = D.hidden_size)
    (hW2 : D.W2.length = D.output_size)
    (hb2 : D.b2.length = D.W2.length)
    (hin : ∀ row ∈ input_tokens, row.length = 1)
    (hh : HasShape3 hidden D.cells.length input_tokens.length D.hidden_size) :
    HasShape2 (D.forward input_tokens hidden).1
        input_tokens.length D.output_size
    ∧ HasShape3 (D.forward input_tokens hidden).2
        D.cells.length input_tokens.length D.hidden_size := by
  have hperlen : (input_tokens.zip (perBatch hidden input_tokens.length)).length
      = input_tokens.length := by
    rw [List.length_zip, perBatch_length]
    omega
  have h1 : (D.forward input_tokens hidden).1
      = ((input_tokens.zip (perBatch hidden input_tokens.length)).map
          (fun p => decodeStepSeq D (p.1.headD 0) p.2)).map Prod.fst := rfl
  have h2 : (D.forward input_tokens hidden).2
      = perLayer (((input_tokens.zip (perBatch hidden input_tokens.length)).map
          (fun p => decodeStepSeq D (p.1.headD 0) p.2)).map Prod.snd)
          D.cells.length := rfl
  refine ⟨⟨?_, ?_⟩, ?_, ?_⟩
  · rw [h1, List.length_map, List.length_map, hperlen]
  · intro r hr
    rw [h1] at hr
    obtain ⟨q, hq, rfl⟩ := List.mem_map.mp hr
    obtain ⟨p, _, rfl⟩ := List.mem_map.mp hq
    show (fcForward D _).length = _
    rw [fcForward, affine_length, hb2, Nat.min_self, hW2]
  · rw [h2, perLayer, List.length_map, List.length_range]
  · intro x hx
    rw [h2, perLayer] at hx
    obtain ⟨l, hl, rfl⟩ := List.mem_map.mp hx
    have hlN : l < D.cells.length := List.mem_range.mp hl
    constructor
    · rw [List.length_map, List.length_map, List.length_map, hperlen]
    · intro y hy
      obtain ⟨q, hq, rfl⟩ := List.mem_map.mp hy
      obtain ⟨w, hw, rfl⟩ := List.mem_map.mp hq
      obtain ⟨p, hp, rfl⟩ := List.mem_map.mp hw
      obtain ⟨_, hp2⟩ := List.of_mem_zip hp
      have hstack : ((decodeStepSeq D (p.1.headD 0) p.2).2)
          = stepStack D.cells ((D.embedding (p.1.headD 0)).map D.dropout) p.2 := rfl
      have hp2len : p.2.length = D.cells.length := by
        rw [perBatch_mem_length p.2 hp2, hh.1]
      have hslen : (stepStack D.cells
          ((D.embedding (p.1.headD 0)).map D.dropout) p.2).length
          = D.cells.length := by
        rw [stepStack_length, hp2len, Nat.min_self]
      have hlt : l < (stepStack D.cells
          ((D.embedding (p.1.headD 0)).map D.dropout) p.2).length := by
        rw [hslen]; exact hlN
      have hgd : ((decodeStepSeq D (p.1.headD 0) p.2).2).getD l []
          = (stepStack D.cells ((D.embedding (p.1.headD 0)).map D.dropout) p.2).get
              ⟨l, hlt⟩ := by
        rw [hstack, List.getD_eq_get?, List.get?_eq_get hlt]
        rfl
      rw [hgd]
      exact stepStack_mem_length hc _ _ _ (List.get_mem _ _ _)

/-- Witness for `decoder_forward_shape`: a one-layer decoder on a batch of one
token with a (1 × 1 × 1) hidden state. -/
theorem decoder_forward_shape_witness :
    HasShape2 (decOne.forward [[3]] [[[0]]]).1 1 2
    ∧ HasShape3 (decOne.forward [[3]] [[[0]]]).2 1 1 1 :=
  decoder_forward_shape decOne [[3]] [[[0]]]
    (by
      intro c hc x h
      cases hc with
      | head => rfl
      | tail _ h2 => cases h2)
    rfl rfl (by decide) (by decide)

theorem decodeLoop_length_le (M : Seq2Seq) (softmax : List ℚ → List ℚ)
    (rand : Nat → ℚ) (temperature : ℚ) :
    ∀ (fuel step decoder_input : Nat) (dh : List (List (List ℚ))),
      (decodeLoop M softmax rand temperature fuel step decoder_input dh).length
        ≤ fuel := by
  intro fuel
  induction fuel with
  | zero => intro step di dh; simp [decodeLoop]
  | succ fuel ih =>
    intro step di dh
    simp only [decodeLoop]
    rcases hst : decodeStepTok M softmax rand temperature step di dh with ⟨tok, dh2⟩
    dsimp only
    by_cases h : tok = M.eos_token_id
    · simp [h]
    · simp only [h, if_false, List.length_cons]
      exact Nat.succ_le_succ (ih _ _ _)

theorem decodeLoop_length_of_not_mem (M : Seq2Seq) (softmax : List ℚ → List ℚ)
    (rand : Nat → ℚ) (temperature : ℚ) :
    ∀ (fuel step decoder_input : Nat) (dh : List (List (List ℚ))),
      M.eos_token_id ∉ decodeLoop M softmax rand temperature fuel step decoder_input dh →
      (decodeLoop M softmax rand temperature fuel step decoder_input dh).length
        = fuel := by
  intro fuel
  induction fuel with
  | zero => intro step di dh _; rfl
  | succ fuel ih =>
    intro step di dh hmem
    simp only [decodeLoop] at hmem ⊢
    rcases hst : decodeStepTok M softmax rand temperature step di dh with ⟨tok, dh2⟩
    rw [hst] at hmem
    dsimp only at hmem ⊢
    by_cases h : tok = M.eos_token_id
    · rw [if_pos h] at hmem
      rw [← h] at hmem
      simp at hmem
    · rw [if_neg h] at hmem ⊢
      simp only [List.mem_cons, not_or] at hmem
      simp only [List.length_cons]
      rw [ih _ _ _ hmem.2]

theorem decodeLoop_getLast_of_lt (M : Seq2Seq) (softmax : List ℚ → List ℚ)
    (rand : Nat → ℚ) (temperature : ℚ) :
    ∀ (fuel step decoder_input : Nat) (dh : List (List (List ℚ))),
      (decodeLoop M softmax rand temperature fuel step decoder_input dh).length
        < fuel →
      (decodeLoop M softmax rand temperature fuel step decoder_input dh).getLast?
        = some M.eos_token_id := by
  intro fuel
  induction fuel with
  | zero => intro step di dh h; cases h
  | succ fuel ih =>
    intro step di dh hlt
    simp only [decodeLoop] at hlt ⊢
    rcases hst : decodeStepTok M softmax rand temperature step di dh with ⟨tok, dh2⟩
    rw [hst] at hlt
    dsimp only at hlt ⊢
    by_cases h : tok = M.eos_token_id
    · rw [if_pos h]
      simp [h]
    · rw [if_neg h] at hlt ⊢
      simp only [List.length_cons, Nat.add_lt_add_iff_right] at hlt
      have hrest := ih _ _ _ hlt
      cases hr : decodeLoop M softmax rand temperature fuel (step + 1) tok dh2 with
      | nil =>
        rw [hr] at hrest
        simp at hrest
      | cons a as =>
        rw [hr] at hrest
        rw [List.getLast?_cons_cons]
        exact hrest

theorem decodeLoop_eos_only_last (M : Seq2Seq) (softmax : List ℚ → List ℚ)
    (rand : Nat → ℚ) (temperature : ℚ) :
    ∀ (fuel step decoder_input : Nat) (dh : List (List (List ℚ))) (i : Nat),
      i + 1 < (decodeLoop M softmax rand temperature fuel step decoder_input dh).length →
      (decodeLoop M softmax rand temperature fuel step decoder_input dh).get? i
        ≠ some M.eos_token_id := by
  intro fuel
  induction fuel with
  | zero => intro step di dh i h; simp [decodeLoop] at h
  | succ fuel ih =>
    intro step di dh i hlen
    simp only [decodeLoop] at hlen ⊢
    rcases hst : decodeStepTok M softmax rand temperature step di dh with ⟨tok, dh2⟩
    rw [hst] at hlen
    dsimp only at hlen ⊢
    by_cases h : tok = M.eos_token_id
    · rw [if_pos h] at hlen
      simp at hlen
    · rw [if_neg h] at hlen ⊢
      match i with
      | 0 =>
        intro hget
        exact h (Option.some.inj hget)
      | i + 1 =>
        simp only [List.length_cons, Nat.add_lt_add_iff_right] at hlen
        show (decodeLoop M softmax rand temperature fuel (step + 1) tok dh2).get? i
          ≠ some M.eos_token_id
        exact ih _ _ _ i hlen

/-- C3: for every input, every `max_output_len ≥ 1`, every `temperature > 0`
(and every decoder, softmax and random draw), generation mode returns at most
`max_output_len` tokens; if it stops before producing `max_output_len` tokens
then the last emitted token is the end-of-sequence id (the terminal token is
included in the output), and if the end-of-sequence id is never sampled the
loop runs for the full `max_output_len` steps. -/
theorem seq2seq_forward_termination (M : Seq2Seq) (softmax : List ℚ → List ℚ)
    (rand : Nat → ℚ) (input_tokens : List Nat) (max_output_len : Nat)
    (temperature : ℚ) (hM : 1 ≤ max_output_len) (hT : 0 < temperature) :
    (M.forward softmax rand input_tokens max_output_len temperature).length
        ≤ max_output_len
    ∧ ((M.forward softmax rand input_tokens max_output_len temperature).length
          < max_output_len →
        (M.forward softmax rand input_tokens max_output_len temperature).getLast?
          = some M.eos_token_id)
    ∧ (M.eos_token_id ∉ M.forward softmax rand input_tokens max_output_len temperature →
        (M.forward softmax rand input_tokens max_output_len temperature).length
          = max_output_len) := by
  have hrw : M.forward softmax rand input_tokens max_output_len temperature
      = decodeLoop M softmax rand temperature max_output_len 0 M.sos_token_id
          (M.encoder.forward [input_tokens]) := rfl
  rw [hrw]
  exact ⟨decodeLoop_length_le M softmax rand temperature max_output_len 0 _ _,
    decodeLoop_getLast_of_lt M softmax rand temperature max_output_len 0 _ _,
    decodeLoop_length_of_not_mem M softmax rand temperature max_output_len 0 _ _⟩

/-- Witness for `seq2seq_forward_termination`: the concrete model `s2sOne`
with a constant softmax and zero random draws, input `[0]`, two steps,
temperature 1. -/
theorem seq2seq_forward_termination_witness :
    (s2sOne.forward (fun _ => [0, 1]) (fun _ => 0) [0] 2 1).length ≤ 2
    ∧ ((s2sOne.forward (fun _ => [0, 1]) (fun _ => 0) [0] 2 1).length < 2 →
        (s2sOne.forward (fun _ => [0, 1]) (fun _ => 0) [0] 2 1).getLast?
          = some s2sOne.eos_token_id)
    ∧ (s2sOne.eos_token_id ∉ s2sOne.forward (fun _ => [0, 1]) (fun _ => 0) [0] 2 1 →
        (s2sOne.forward (fun _ => [0, 1]) (fun _ => 0) [0] 2 1).length = 2) :=
  seq2seq_forward_termination s2sOne (fun _ => [0, 1]) (fun _ => 0) [0] 2 1
    (by decide) (by decide)

/-- C9: in every sequence returned by generation mode, no element before the
final position equals the end-of-sequence id — so the end-of-sequence id
occurs at most once, and only as the last element. -/
theorem seq2seq_forward_eos_only_last (M : Seq2Seq) (softmax : List ℚ → List ℚ)
    (rand : Nat → ℚ) (input_tokens : List Nat) (max_output_len : Nat)
    (temperature : ℚ) :
    ∀ i, i + 1 < (M.forward softmax rand input_tokens max_output_len temperature).length →
      (M.forward softmax rand input_tokens max_output_len temperature).get? i
        ≠ some M.eos_token_id := by
  have hrw : M.forward softmax rand input_tokens max_output_len temperature
      = decodeLoop M softmax rand temperature max_output_len 0 M.sos_token_id
          (M.encoder.forward [input_tokens]) := rfl
  rw [hrw]
  exact fun i =>
    decodeLoop_eos_only_last M softmax rand temperature max_output_len 0 _ _ i

/-- Witness for `seq2seq_forward_eos_only_last`: on the two-token run of
`s2sOne` the first position is not the end-of-sequence id. -/
theorem seq2seq_forward_eos_only_last_witness :
    (s2sOne.forward (fun _ => [0, 1]) (fun _ => 0) [0] 2 1).get? 0
      ≠ some s2sOne.eos_token_id :=
  seq2seq_forward_eos_only_last s2sOne (fun _ => [0, 1]) (fun _ => 0) [0] 2 1 0
    (by decide)

/-- C10: with `max_output_len = 0` generation mode returns the empty sequence
for every input, every temperature, every decoder/softmax/random source: the
decode loop runs zero iterations (the encoder call still happens first in the
definition of `Seq2Seq.forward`, but no decoder step is taken). -/
theorem seq2seq_forward_zero_steps (M : Seq2Seq) (softmax : List ℚ → List ℚ)
    (rand : Nat → ℚ) (input_tokens : List Nat) (temperature : ℚ) :
    M.forward softmax rand input_tokens 0 temperature = [] := rfl

/-- C1 (refuting the claimed training shape): on every non-empty input batch
the committed `Seq2Seq.forward_train` raises `TypeError` — the decoder-input
initialisation passes the tensor row `input_tokens[0]` as a size to
`torch.ones` — so no logits tensor of shape (B × (L-1) × vocab) is ever
returned. -/
theorem forward_train_type_error (M : Seq2Seq)
    (input_tokens output_tokens : List (List Nat))
    (h : input_tokens ≠ []) :
    (M.forward_train input_tokens output_tokens).1
      = Except.error PyErr.typeError := by
  cases input_tokens with
  | nil => exact absurd rfl h
  | cons r rs => rfl

/-- Witness for `forward_train_type_error`: a concrete 2 × 2 batch. -/
theorem forward_train_type_error_witness :
    (s2sOne.forward_train [[0, 1], [1, 0]] [[0, 1], [1, 0]]).1
      = Except.error PyErr.typeError :=
  forward_train_type_error s2sOne [[0, 1], [1, 0]] [[0, 1], [1, 0]] (by decide)

/-- C2 (refuting the claimed teacher forcing): the committed
`Seq2Seq.forward_train` never invokes the decoder at all — the recorded trace
of decoder-input batches is empty for every input — because execution raises
before the first loop iteration (and the first iteration would read the
unassigned name `decoder_inputs`). -/
theorem forward_train_no_decoder_call (M : Seq2Seq)
    (input_tokens output_tokens : List (List Nat)) :
    (M.forward_train input_tokens output_tokens).2 = [] := by
  cases input_tokens with
  | nil => rfl
  | cons r rs => rfl
